import Mathlib

/-! PFQ: bit-mask utilities, the global configuration registry and the test descriptor

A shallow embedding of `kernel/pfq/bitops.h`, `kernel/engine/global.c` and the
descriptor built by `user/test/test-fun-prog.cpp`.

Machine integers are natural numbers; a value of an unsigned type of width `w`
is a natural number below `2 ^ w`, and every operation that can leave that
range is reduced modulo `2 ^ w` explicitly.
-/

namespace PFQ

/-! ## Compiler intrinsics used by `bitops.h` -/

/-- The GCC intrinsics `__builtin_popcount`, `__builtin_popcountl` and
`__builtin_popcountll` at operand width `w`: the number of 1-bits of `x`. -/
def __builtin_popcount (w : Nat) (x : Nat) : Nat :=
  ((List.range w).filter (fun i => x.testBit i)).length

/-- The GCC intrinsics `__builtin_ctz`, `__builtin_ctzl` and `__builtin_ctzll`
at operand width `w`: the number of trailing 0-bits of `x`, counted from the
least significant bit. For `x = 0` GCC documents the result as undefined; `u`
is the value the intrinsic happens to produce in that case. -/
def __builtin_ctz (w : Nat) (u : Nat) (x : Nat) : Nat :=
  ((List.range w).find? (fun i => x.testBit i)).getD u

/-! ## `bitops.h` -/

/-- The four operand types that `pfq_ctz` and `pfq_popcount` dispatch on. -/
inductive CType where
  | unsigned_int
  | unsigned_long
  | unsigned_int128
  | unsigned_long_long
  deriving DecidableEq, Repr

/-- Width in bits of each operand type (LP64: the only data model on which
`unsigned __int128` exists). -/
def CType.width : CType → Nat
  | .unsigned_int => 32
  | .unsigned_long => 64
  | .unsigned_int128 => 128
  | .unsigned_long_long => 64

/-- The function `__128bit_popcount(unsigned __int128 x)`. -/
def __128bit_popcount (x : Nat) : Nat :=
  __builtin_popcount 64 (x % 2 ^ 64) + __builtin_popcount 64 ((x >>> 64) % 2 ^ 64)

/-- The function `__128bit_ctz(unsigned __int128 x)`: both intrinsic calls are
made unconditionally, then one of the two results is selected. -/
def __128bit_ctz (u : Nat) (x : Nat) : Nat :=
  let a := __builtin_ctz 64 u (x % 2 ^ 64)
  let b := __builtin_ctz 64 u ((x >>> 64) % 2 ^ 64)
  if x % 2 ^ 64 ≠ 0 then a else b + 64

/-- The macro `pfq_ctz(n)`, by the type of `n`; the result is cast to
`unsigned int`. -/
def pfq_ctz (t : CType) (u : Nat) (n : Nat) : Nat :=
  match t with
  | .unsigned_int => __builtin_ctz 32 u n % 2 ^ 32
  | .unsigned_long => __builtin_ctz 64 u n % 2 ^ 32
  | .unsigned_int128 => __128bit_ctz u n % 2 ^ 32
  | .unsigned_long_long => __builtin_ctz 64 u n % 2 ^ 32

/-- The macro `pfq_popcount(n)`, by the type of `n`; the result is cast to
`unsigned int`. -/
def pfq_popcount (t : CType) (n : Nat) : Nat :=
  match t with
  | .unsigned_int => __builtin_popcount 32 n % 2 ^ 32
  | .unsigned_long => __builtin_popcount 64 n % 2 ^ 32
  | .unsigned_int128 => __128bit_popcount n % 2 ^ 32
  | .unsigned_long_long => __builtin_popcount 64 n % 2 ^ 32

/-- Unary minus on an unsigned value of width `w`. -/
def neg (w : Nat) (x : Nat) : Nat := (2 ^ w - x) % 2 ^ w

/-- The variables of the caller that `pfq_bitwise_foreach(m, n, ...)` names:
the mask `m` and the loop variable `n`. In `pfq_bitwise_foreach` both have the
mask's type; `pfq_bitwise_foreach_typed` gives `n` a type of its own. -/
structure Env where
  m : Nat
  n : Nat
  deriving DecidableEq, Repr

/-- The `for` statement of `pfq_bitwise_foreach`:
`for(; n = mask_ & -mask_, mask_ ; mask_ ^= n) body`.
The body is taken to read `n` only, so a run is described by the list of
values `n` had at each execution of the body, together with the value left in
`n` when the loop is left. `none` means the iteration budget ran out. -/
def pfq_bitwise_foreach_loop (w : Nat) : Nat → Nat → Option (List Nat × Nat)
  | 0, _ => none
  | fuel + 1, mask_ =>
    let n := mask_ &&& neg w mask_
    if mask_ ≠ 0 then
      (pfq_bitwise_foreach_loop w fuel ((mask_ ^^^ n) % 2 ^ w)).map
        (fun r => (n :: r.1, r.2))
    else some ([], n)

/-- The macro `pfq_bitwise_foreach(m, n, ...)` on an operand of type `t`:
`typeof(m) mask_ = (m);` followed by the loop. A mask of width `w` is given
`w + 1` evaluations of the loop condition. -/
def pfq_bitwise_foreach (t : CType) (env : Env) : Option (List Nat × Env) :=
  (pfq_bitwise_foreach_loop t.width (t.width + 1) (env.m % 2 ^ t.width)).map
    (fun r => (r.1, { env with n := r.2 }))

/-- Indices below `w` of the set bits of `m`, in ascending order. -/
def set_bits (w : Nat) (m : Nat) : List Nat :=
  (List.range w).filter (fun i => m.testBit i)

/-! ## `global.c` -/

/-- The members of `struct global_data` that the initialiser of
`default_global` names. -/
structure global_data where
  capture_incoming : Int
  capture_outgoing : Int
  capt_slot_size : Int
  xmit_slot_size : Int
  xmit_batch_len : Int
  capt_batch_len : Int
  vl_untag : Int
  skb_pool_size : Int
  tx_affinity : List Int
  tx_thread_nr : Int
  tx_rate_control_eager : Int
  deriving DecidableEq, Repr

/-- The initialiser of `default_global`. The length of the array member
`tx_affinity` is declared in `engine/global.h` and is a parameter here; `{0}`
sets every element to zero. -/
def default_global (tx_affinity_len : Nat) : global_data :=
  { capture_incoming := 1
    capture_outgoing := 0
    capt_slot_size := 1514
    xmit_slot_size := 1514
    xmit_batch_len := 1
    capt_batch_len := 1
    vl_untag := 0
    skb_pool_size := 1024
    tx_affinity := List.replicate tx_affinity_len 0
    tx_thread_nr := 0
    tx_rate_control_eager := 1 }

/-- The two objects with static storage duration that `global.c` defines. -/
inductive Obj where
  | default_global
  | global
  deriving DecidableEq, Repr

/-- A pointer value: null, or the address of one of the objects. -/
inductive Ptr where
  | null
  | addr (o : Obj)
  deriving DecidableEq, Repr

/-- The contents of the two objects of `global.c`. -/
structure Memory where
  default_global : global_data
  global : Ptr
  deriving DecidableEq, Repr

/-- The memory at program start: `default_global` holds its initialiser and
the uninitialised pointer `global` is null. -/
def initial_memory (tx_affinity_len : Nat) : Memory :=
  { default_global := default_global tx_affinity_len, global := Ptr.null }

/-- Reading a `struct global_data` through a pointer. -/
def Memory.load (mem : Memory) : Ptr → Option global_data
  | Ptr.addr Obj.default_global => some mem.default_global
  | _ => none

/-- The function `pfq_global_init(void)`: `return &default_global;`. It
returns the pointer and the memory it leaves behind. -/
def pfq_global_init (mem : Memory) : Ptr × Memory :=
  (Ptr.addr Obj.default_global, mem)

/-! ## `test-fun-prog.cpp` -/

/-- One argument slot of a node, the pair `{ pointer, length }`; the pointer
value 0 is `nullptr`. -/
structure pfq_functional_arg where
  ptr : Nat
  size : Nat
  deriving DecidableEq, Repr

/-- The members of `pfq_functional_descr` that `main` assigns. The type is
declared in the absent `pfq.hpp`; `arg` is its array of argument slots. -/
structure pfq_functional_descr where
  symbol : String
  arg : List pfq_functional_arg
  left : Int
  right : Int
  deriving DecidableEq, Repr

/-- The members of `pfq_computation_descr` that `main` assigns; `fun_` is the
member `fun`. -/
structure pfq_computation_descr where
  size : Nat
  entry_point : Nat
  fun_ : List pfq_functional_descr
  deriving DecidableEq, Repr

/-- The indeterminate values held by the block that `malloc` returns, member
by member: node `i` has symbol `symbol i`, slot `j` of its arguments is
`arg i j`, and so on. -/
structure Indeterminate where
  size : Nat
  entry_point : Nat
  symbol : Nat → String
  arg : Nat → Nat → pfq_functional_arg
  left : Nat → Int
  right : Nat → Int

/-- The object behind `prog` right after
`malloc(sizeof(size_t) * 2 + sizeof(pfq_functional_descr) * 5)`: room for 5
nodes, nothing initialised. Each node has 4 argument slots, the array length
the specification gives and the slots `arg[0]` .. `arg[3]` that `main` writes. -/
def malloc_prog (g : Indeterminate) : pfq_computation_descr :=
  { size := g.size
    entry_point := g.entry_point
    fun_ := (List.range 5).map (fun i =>
      { symbol := g.symbol i
        arg := (List.range 4).map (g.arg i)
        left := g.left i
        right := g.right i }) }

/-- Replaces element `i` of a list by `f` of it. -/
def modify_at {α : Type} (f : α → α) : Nat → List α → List α
  | _, [] => []
  | 0, a :: l => f a :: l
  | i + 1, a :: l => a :: modify_at f i l

/-- The assignment `prog->fun[i].symbol = s`. -/
def pfq_computation_descr.set_symbol (p : pfq_computation_descr) (i : Nat) (s : String) :
    pfq_computation_descr :=
  { p with fun_ := modify_at (fun f => { f with symbol := s }) i p.fun_ }

/-- The assignment `prog->fun[i].arg[j] = a`. -/
def pfq_computation_descr.set_arg (p : pfq_computation_descr) (i j : Nat)
    (a : pfq_functional_arg) : pfq_computation_descr :=
  { p with fun_ := modify_at (fun f => { f with arg := modify_at (fun _ => a) j f.arg }) i p.fun_ }

/-- The assignment `prog->fun[i].left = v`. -/
def pfq_computation_descr.set_left (p : pfq_computation_descr) (i : Nat) (v : Int) :
    pfq_computation_descr :=
  { p with fun_ := modify_at (fun f => { f with left := v }) i p.fun_ }

/-- The assignment `prog->fun[i].right = v`. -/
def pfq_computation_descr.set_right (p : pfq_computation_descr) (i : Nat) (v : Int) :
    pfq_computation_descr :=
  { p with fun_ := modify_at (fun f => { f with right := v }) i p.fun_ }

/-- An assignment through `prog`, as `main` makes them. -/
inductive Assign where
  | size (v : Nat)
  | entry_point (v : Nat)
  | symbol (i : Nat) (s : String)
  | arg (i j : Nat) (a : pfq_functional_arg)
  | left (i : Nat) (v : Int)
  | right (i : Nat) (v : Int)
  deriving DecidableEq, Repr

/-- The effect of one assignment on the object behind `prog`. -/
def Assign.exec : Assign → pfq_computation_descr → pfq_computation_descr
  | Assign.size v, p => { p with size := v }
  | Assign.entry_point v, p => { p with entry_point := v }
  | Assign.symbol i s, p => p.set_symbol i s
  | Assign.arg i j a, p => p.set_arg i j a
  | Assign.left i v, p => p.set_left i v
  | Assign.right i v, p => p.set_right i v

/-- Lines 23 to 64 of `test-fun-prog.cpp`, one entry per assignment and in
source order. All twenty argument assignments name `fun[0]`, as in the source. -/
def main_assignments : List Assign :=
  [ Assign.size 5,
    Assign.entry_point 0,
    Assign.symbol 0 "ip",
    Assign.arg 0 0 ⟨0, 0⟩,
    Assign.arg 0 1 ⟨0, 0⟩,
    Assign.arg 0 2 ⟨0, 0⟩,
    Assign.arg 0 3 ⟨0, 0⟩,
    Assign.left 0 1,
    Assign.right 0 1,
    Assign.symbol 1 "conditional",
    Assign.arg 0 0 ⟨0, 0⟩,
    Assign.arg 0 1 ⟨0, 0⟩,
    Assign.arg 0 2 ⟨0, 0⟩,
    Assign.arg 0 3 ⟨0, 0⟩,
    Assign.left 1 3,
    Assign.right 1 4,
    Assign.symbol 2 "is_icmp",
    Assign.arg 0 0 ⟨0, 0⟩,
    Assign.arg 0 1 ⟨0, 0⟩,
    Assign.arg 0 2 ⟨0, 0⟩,
    Assign.arg 0 3 ⟨0, 0⟩,
    Assign.left 2 (-1),
    Assign.right 2 (-1),
    Assign.symbol 3 "steer_ip",
    Assign.arg 0 0 ⟨0, 0⟩,
    Assign.arg 0 1 ⟨0, 0⟩,
    Assign.arg 0 2 ⟨0, 0⟩,
    Assign.arg 0 3 ⟨0, 0⟩,
    Assign.left 3 (-1),
    Assign.right 3 (-1),
    Assign.symbol 4 "drop",
    Assign.arg 0 0 ⟨0, 0⟩,
    Assign.arg 0 1 ⟨0, 0⟩,
    Assign.arg 0 2 ⟨0, 0⟩,
    Assign.arg 0 3 ⟨0, 0⟩,
    Assign.left 4 (-1),
    Assign.right 4 (-1) ]

/-- The descriptor that `main` hands to `set_group_computation`: the block
from `malloc` after the assignments of lines 23 to 64. -/
def main_prog (g : Indeterminate) : pfq_computation_descr :=
  main_assignments.foldl (fun p a => a.exec p) (malloc_prog g)

/-- A block from `malloc` that was used before: every member still holds an
old value, every argument slot the pair `{ 0xdead, 7 }`. -/
def stale_block : Indeterminate :=
  { size := 99
    entry_point := 99
    symbol := fun _ => "stale"
    arg := fun _ _ => ⟨57005, 7⟩
    left := fun _ => 99
    right := fun _ => 99 }

/-- A branch index is well formed when it is the sentinel `-1` or lies below
`size`. -/
def index_ok (d : pfq_computation_descr) (v : Int) : Bool :=
  v == -1 || (decide (0 ≤ v) && decide (v < (d.size : Int)))

/-- The nodes that follow node `i`: its `left` and `right`, the sentinel `-1`
left out. -/
def succs (d : pfq_computation_descr) (i : Nat) : List Nat :=
  match d.fun_.get? i with
  | none => []
  | some f => [f.left, f.right].filterMap (fun v => if v = -1 then none else some v.toNat)

/-- A terminal node has no successor: both branch indices are `-1`. -/
def is_terminal (d : pfq_computation_descr) (i : Nat) : Bool :=
  (succs d i).isEmpty

/-- A walk is a list of nodes in which each node is followed by one of its
successors. -/
def is_walk (d : pfq_computation_descr) : List Nat → Bool
  | [] => true
  | [_] => true
  | a :: b :: rest => decide (b ∈ succs d a) && is_walk d (b :: rest)

/-- The operands on which `__128bit_ctz(x)` evaluates `__builtin_ctzll`, in
program order, next to the value it returns. -/
def __128bit_ctz_traced (u : Nat) (x : Nat) : Nat × List Nat :=
  let a := __builtin_ctz 64 u (x % 2 ^ 64)
  let b := __builtin_ctz 64 u ((x >>> 64) % 2 ^ 64)
  (if x % 2 ^ 64 ≠ 0 then a else b + 64, [x % 2 ^ 64, (x >>> 64) % 2 ^ 64])

/-! ## `pfq_bitwise_foreach` with a loop variable of any integer type -/

/-- An integer type for the caller's loop variable `n`: its width in bits and
whether it is signed. The macro declares `mask_` only; `n` is whatever lvalue
the caller names. -/
structure IntType where
  bits : Nat
  is_signed : Bool
  deriving DecidableEq, Repr

/-- The assignment `n = mask_ & -mask_` when `n` has type `nt`: the bit pattern
left in `n`. Conversion to an unsigned type is modulo `2 ^ bits`, and GCC
converts to a signed type modulo `2 ^ bits` as well. -/
def store_n (nt : IntType) (v : Nat) : Nat := v % 2 ^ nt.bits

/-- The operand `n` of `mask_ ^= n` for a mask of width `w`: the bit pattern of
`n` brought to the wider of the two widths by the usual arithmetic
conversions, sign-extended when `n` is signed and negative and zero-extended
otherwise. -/
def load_n (nt : IntType) (w : Nat) (n : Nat) : Nat :=
  if nt.is_signed = true ∧ 2 ^ (nt.bits - 1) ≤ n then
    n + (2 ^ max w nt.bits - 2 ^ nt.bits)
  else n

/-- The `for` statement of `pfq_bitwise_foreach` on a mask of width `w` when
`n` has type `nt`: `n = mask_ & -mask_` converts to the type of `n`, and
`mask_ ^= n` converts `n` back and truncates the result to the mask's type.
The run is described by the bit patterns `n` held at each execution of the
body and the one left in `n` at the end; `none` means the iteration budget
ran out. -/
def pfq_bitwise_foreach_loop_typed (w : Nat) (nt : IntType) :
    Nat → Nat → Option (List Nat × Nat)
  | 0, _ => none
  | fuel + 1, mask_ =>
    let n := store_n nt (mask_ &&& neg w mask_)
    if mask_ ≠ 0 then
      (pfq_bitwise_foreach_loop_typed w nt fuel ((mask_ ^^^ load_n nt w n) % 2 ^ w)).map
        (fun r => (n :: r.1, r.2))
    else some ([], n)

/-- The macro `pfq_bitwise_foreach(m, n, ...)` on a mask of type `t` when the
caller's `n` has type `nt`, with the same budget of `w + 1` evaluations of the
loop condition. -/
def pfq_bitwise_foreach_typed (t : CType) (nt : IntType) (env : Env) :
    Option (List Nat × Env) :=
  (pfq_bitwise_foreach_loop_typed t.width nt (t.width + 1) (env.m % 2 ^ t.width)).map
    (fun r => (r.1, { env with n := r.2 }))

/-! ## Arithmetic of the lowest set bit -/

theorem exists_pow_mul_odd : ∀ m : Nat, m ≠ 0 → ∃ k q, m = 2 ^ k * (2 * q + 1) := by
  intro m
  induction m using Nat.strong_induction_on with
  | _ m ih =>
    intro hm
    rcases Nat.even_or_odd' m with ⟨c, hc | hc⟩
    · have hc0 : c ≠ 0 := by omega
      obtain ⟨k, q, hkq⟩ := ih c (by omega) hc0
      exact ⟨k + 1, q, by rw [hc, hkq, pow_succ]; ring⟩
    · exact ⟨0, c, by simpa using hc⟩

theorem testBit_pow_mul_odd (k q i : Nat) :
    (2 ^ k * (2 * q + 1)).testBit i = (decide (k ≤ i) && (2 * q + 1).testBit (i - k)) := by
  have h := Nat.testBit_mul_pow_two_add (2 * q + 1) (Nat.two_pow_pos k) i
  rw [Nat.add_zero] at h
  rw [h]
  by_cases hik : i < k
  · simp [hik, Nat.not_le.mpr hik]
  · simp [hik, Nat.not_lt.mp hik]

theorem testBit_pow_mul_odd_pred (k q i : Nat) :
    (2 ^ k * (2 * q + 1) - 1).testBit i
      = (decide (i < k) || (decide (k < i) && (2 * q + 1).testBit (i - k))) := by
  have hp : 0 < 2 ^ k := Nat.two_pow_pos k
  have e : 2 ^ k * (2 * q + 1) - 1 = 2 ^ k * (2 * q) + (2 ^ k - 1) := by
    have : 2 ^ k * (2 * q + 1) = 2 ^ k * (2 * q) + 2 ^ k := by ring
    omega
  rw [e, Nat.testBit_mul_pow_two_add (2 * q) (by omega : 2 ^ k - 1 < 2 ^ k) i]
  by_cases hik : i < k
  · simp [hik, Nat.testBit_two_pow_sub_one]
  · rcases Nat.eq_or_lt_of_le (Nat.not_lt.mp hik) with h | h
    · subst h; simp
    · obtain ⟨d, rfl⟩ : ∃ d, i = k + (d + 1) := ⟨i - k - 1, by omega⟩
      have e1 : k + (d + 1) - k = d + 1 := by omega
      simp [hik, h, e1, Nat.testBit_succ]
      congr 1
      omega

/-- The lowest set bit of `2 ^ k * (2 * q + 1)` is bit `k`. -/
theorem testBit_pow_mul_odd_self (k q : Nat) : (2 ^ k * (2 * q + 1)).testBit k = true := by
  rw [testBit_pow_mul_odd]; simp; omega

theorem testBit_pow_mul_odd_lt (k q j : Nat) (h : j < k) :
    (2 ^ k * (2 * q + 1)).testBit j = false := by
  rw [testBit_pow_mul_odd]; simp [Nat.not_le.mpr h]

theorem lt_of_pow_mul_odd_lt (w k q : Nat) (h : 2 ^ k * (2 * q + 1) < 2 ^ w) : k < w := by
  by_contra hc
  have h1 := Nat.testBit_lt_two_pow (lt_of_lt_of_le h (Nat.pow_le_pow_right (by norm_num) (Nat.not_lt.mp hc)))
  rw [testBit_pow_mul_odd_self] at h1
  exact Bool.noConfusion h1

theorem neg_of_pos (w x : Nat) (h0 : x ≠ 0) (h : x < 2 ^ w) : neg w x = 2 ^ w - (x - 1 + 1) := by
  unfold neg
  rw [Nat.mod_eq_of_lt (by omega)]
  congr 1; omega

theorem land_neg_pow_mul_odd (w k q : Nat) (h : 2 ^ k * (2 * q + 1) < 2 ^ w) :
    2 ^ k * (2 * q + 1) &&& neg w (2 ^ k * (2 * q + 1)) = 2 ^ k := by
  have hk := lt_of_pow_mul_odd_lt w k q h
  have h0 : 2 ^ k * (2 * q + 1) ≠ 0 := by positivity
  rw [neg_of_pos w _ h0 h]
  apply Nat.eq_of_testBit_eq
  intro i
  rw [Nat.testBit_and, Nat.testBit_two_pow_sub_succ (by omega), testBit_pow_mul_odd_pred,
    testBit_pow_mul_odd, Nat.testBit_two_pow]
  rcases Nat.lt_trichotomy i k with hik | hik | hik
  · simp [Nat.not_le.mpr hik, Nat.ne_of_gt hik]
  · subst hik; simp [hk]; omega
  · simp [Nat.not_lt.mpr (Nat.le_of_lt hik), hik, Nat.le_of_lt hik, Nat.ne_of_lt hik]
    intro hx _; exact hx

theorem testBit_xor_two_pow (m k i : Nat) (h : m.testBit k = true) :
    (m ^^^ 2 ^ k).testBit i = (m.testBit i && decide (i ≠ k)) := by
  rw [Nat.testBit_xor, Nat.testBit_two_pow]
  by_cases hik : k = i
  · subst hik; simp [h]
  · simp [hik, Ne.symm hik]

/-! ## The set bits of a mask -/

theorem filter_range_cons (p p' : Nat → Bool) (k : Nat) :
    ∀ w, k < w → p k = true → (∀ j, j < k → p j = false) →
      (∀ j, p' j = (p j && decide (j ≠ k))) →
      (List.range w).filter p = k :: (List.range w).filter p' := by
  intro w
  induction w with
  | zero => intro hk; omega
  | succ w ih =>
    intro hk hpk hlt hp'
    rw [List.range_succ, List.filter_append, List.filter_append]
    rcases Nat.eq_or_lt_of_le (Nat.le_of_lt_succ hk) with h | h
    · subst h
      have e1 : (List.range k).filter p = [] := by
        rw [List.filter_eq_nil_iff]
        intro a ha
        rw [hlt a (List.mem_range.mp ha)]; simp
      have e2 : (List.range k).filter p' = [] := by
        rw [List.filter_eq_nil_iff]
        intro a ha
        rw [hp' a, hlt a (List.mem_range.mp ha)]; simp
      have e3 : [k].filter p' = [] := by simp [hp' k]
      rw [e1, e2, e3]
      simp [hpk]
    · rw [ih h hpk hlt hp']
      have e3 : [w].filter p' = [w].filter p := by
        apply List.filter_congr
        intro x hx
        rw [List.mem_singleton] at hx
        subst hx
        rw [hp' x]; simp [Nat.ne_of_gt h]
      rw [e3]; rfl

theorem set_bits_zero (w : Nat) : set_bits w 0 = [] := by
  unfold set_bits
  rw [List.filter_eq_nil_iff]
  intro a _
  simp

theorem set_bits_pow_mul_odd (w k q : Nat) (h : 2 ^ k * (2 * q + 1) < 2 ^ w) :
    set_bits w (2 ^ k * (2 * q + 1)) = k :: set_bits w (2 ^ k * (2 * q + 1) ^^^ 2 ^ k) := by
  unfold set_bits
  exact filter_range_cons _ _ k w (lt_of_pow_mul_odd_lt w k q h)
    (testBit_pow_mul_odd_self k q) (fun j hj => testBit_pow_mul_odd_lt k q j hj)
    (fun j => testBit_xor_two_pow _ k j (testBit_pow_mul_odd_self k q))

theorem set_bits_length_le (w m : Nat) : (set_bits w m).length ≤ w := by
  unfold set_bits
  exact le_trans (List.length_filter_le _ _) (by simp)

theorem mem_set_bits (w m i : Nat) : i ∈ set_bits w m ↔ i < w ∧ m.testBit i = true := by
  unfold set_bits
  simp [List.mem_filter]

/-! ## The loop of `pfq_bitwise_foreach` -/

theorem pfq_bitwise_foreach_loop_eq (w : Nat) :
    ∀ fuel m, m < 2 ^ w → (set_bits w m).length < fuel →
      pfq_bitwise_foreach_loop w fuel m = some ((set_bits w m).map (fun i => 2 ^ i), 0) := by
  intro fuel
  induction fuel with
  | zero => intro m _ h; omega
  | succ fuel ih =>
    intro m hm hlen
    by_cases h0 : m = 0
    · subst h0
      simp [pfq_bitwise_foreach_loop, set_bits_zero]
    · obtain ⟨k, q, rfl⟩ := exists_pow_mul_odd m h0
      have hk := lt_of_pow_mul_odd_lt w k q hm
      have hlt : 2 ^ k * (2 * q + 1) ^^^ 2 ^ k < 2 ^ w :=
        Nat.xor_lt_two_pow hm (Nat.pow_lt_pow_right (by norm_num) hk)
      have hs := set_bits_pow_mul_odd w k q hm
      rw [hs] at hlen
      have hrec := ih _ hlt (by simpa using hlen)
      simp only [pfq_bitwise_foreach_loop, land_neg_pow_mul_odd w k q hm, Nat.mod_eq_of_lt hlt,
        hrec, hs]
      simp [h0]

theorem pfq_bitwise_foreach_eq (t : CType) (env : Env) (h : env.m < 2 ^ t.width) :
    pfq_bitwise_foreach t env
      = some ((set_bits t.width env.m).map (fun i => 2 ^ i), { env with n := 0 }) := by
  unfold pfq_bitwise_foreach
  rw [Nat.mod_eq_of_lt h, pfq_bitwise_foreach_loop_eq t.width _ _ h
    (Nat.lt_succ_of_le (set_bits_length_le _ _))]
  rfl

/-! ## Population count and trailing zeros -/

theorem __builtin_popcount_eq (w x : Nat) : __builtin_popcount w x = (set_bits w x).length := rfl

theorem __128bit_popcount_eq (x : Nat) : __128bit_popcount x = (set_bits 128 x).length := by
  have e : (128 : Nat) = 64 + 64 := rfl
  unfold __128bit_popcount __builtin_popcount set_bits
  rw [e, List.range_add, List.filter_append, List.length_append, List.filter_map,
    List.length_map]
  congr 2
  · apply List.filter_congr
    intro i hi
    rw [Nat.testBit_mod_two_pow]
    simp [List.mem_range.mp hi]
  · apply List.filter_congr
    intro i hi
    rw [Nat.testBit_mod_two_pow, Nat.testBit_shiftRight]
    simp [List.mem_range.mp hi]

theorem pfq_popcount_eq (t : CType) (m : Nat) :
    pfq_popcount t m = (set_bits t.width m).length := by
  have h := set_bits_length_le t.width m
  cases t <;>
    simp only [pfq_popcount, __builtin_popcount_eq, __128bit_popcount_eq, CType.width] at h ⊢ <;>
    exact Nat.mod_eq_of_lt (by omega)

theorem find?_range_eq (p : Nat → Bool) (k : Nat) :
    ∀ w, k < w → p k = true → (∀ j, j < k → p j = false) →
      (List.range w).find? p = some k := by
  intro w
  induction w with
  | zero => intro hk; omega
  | succ w ih =>
    intro hk hpk hlt
    rw [List.range_succ, List.find?_append]
    rcases Nat.eq_or_lt_of_le (Nat.le_of_lt_succ hk) with h | h
    · subst h
      have e1 : (List.range k).find? p = none := by
        rw [List.find?_eq_none]
        intro a ha
        rw [hlt a (List.mem_range.mp ha)]; simp
      rw [e1, List.find?_cons_of_pos _ hpk]; rfl
    · rw [ih h hpk hlt]; rfl

theorem __builtin_ctz_pow_mul_odd (w u k q : Nat) (h : 2 ^ k * (2 * q + 1) < 2 ^ w) :
    __builtin_ctz w u (2 ^ k * (2 * q + 1)) = k := by
  unfold __builtin_ctz
  rw [find?_range_eq _ k w (lt_of_pow_mul_odd_lt w k q h) (testBit_pow_mul_odd_self k q)
    (fun j hj => testBit_pow_mul_odd_lt k q j hj)]
  rfl

/-- On a nonzero operand that fits the width, the intrinsic returns the index
of the least significant set bit. -/
theorem __builtin_ctz_spec (w u x : Nat) (h0 : x ≠ 0) (h : x < 2 ^ w) :
    __builtin_ctz w u x < w ∧ x.testBit (__builtin_ctz w u x) = true ∧
      ∀ j, j < __builtin_ctz w u x → x.testBit j = false := by
  obtain ⟨k, q, rfl⟩ := exists_pow_mul_odd x h0
  rw [__builtin_ctz_pow_mul_odd w u k q h]
  exact ⟨lt_of_pow_mul_odd_lt w k q h, testBit_pow_mul_odd_self k q,
    fun j hj => testBit_pow_mul_odd_lt k q j hj⟩

theorem __128bit_ctz_spec (u x : Nat) (h0 : x ≠ 0) (h : x < 2 ^ 128) :
    __128bit_ctz u x < 128 ∧ x.testBit (__128bit_ctz u x) = true ∧
      ∀ j, j < __128bit_ctz u x → x.testBit j = false := by
  unfold __128bit_ctz
  by_cases hlo : x % 2 ^ 64 = 0
  · have hhi_lt : x >>> 64 < 2 ^ 64 := by
      rw [Nat.shiftRight_eq_div_pow]
      exact Nat.div_lt_of_lt_mul (by simpa [← pow_add] using h)
    have hhi0 : x >>> 64 ≠ 0 := by
      rw [Nat.shiftRight_eq_div_pow]
      intro hc
      have := Nat.div_add_mod x (2 ^ 64)
      rw [hc, hlo] at this
      omega
    obtain ⟨h1, h2, h3⟩ := __builtin_ctz_spec 64 u (x >>> 64) hhi0 hhi_lt
    simp only [hlo, ne_eq, not_true_eq_false, if_false, Nat.mod_eq_of_lt hhi_lt]
    refine ⟨by omega, ?_, ?_⟩
    · rw [Nat.testBit_shiftRight] at h2
      rw [Nat.add_comm]; exact h2
    · intro j hj
      by_cases hj64 : j < 64
      · have := Nat.testBit_mod_two_pow x 64 j
        rw [hlo] at this
        simpa [hj64] using this.symm
      · have := h3 (j - 64) (by omega)
        rw [Nat.testBit_shiftRight] at this
        rwa [show 64 + (j - 64) = j by omega] at this
  · have hlt : x % 2 ^ 64 < 2 ^ 64 := Nat.mod_lt _ (by positivity)
    obtain ⟨h1, h2, h3⟩ := __builtin_ctz_spec 64 u (x % 2 ^ 64) hlo hlt
    simp only [ne_eq, hlo, not_false_eq_true, if_true]
    refine ⟨by omega, ?_, ?_⟩
    · rw [Nat.testBit_mod_two_pow, Bool.and_eq_true] at h2
      exact h2.2
    · intro j hj
      have := h3 j hj
      rw [Nat.testBit_mod_two_pow] at this
      simpa [show j < 64 by omega] using this

theorem pfq_ctz_spec (t : CType) (u x : Nat) (h0 : x ≠ 0) (h : x < 2 ^ t.width) :
    pfq_ctz t u x < t.width ∧ x.testBit (pfq_ctz t u x) = true ∧
      ∀ j, j < pfq_ctz t u x → x.testBit j = false := by
  cases t
  · have hs := __builtin_ctz_spec 32 u x h0 h
    have e : pfq_ctz CType.unsigned_int u x = __builtin_ctz 32 u x :=
      Nat.mod_eq_of_lt (by omega)
    rw [e]; exact hs
  · have hs := __builtin_ctz_spec 64 u x h0 h
    have e : pfq_ctz CType.unsigned_long u x = __builtin_ctz 64 u x :=
      Nat.mod_eq_of_lt (by omega)
    rw [e]; exact hs
  · have hs := __128bit_ctz_spec u x h0 h
    have e : pfq_ctz CType.unsigned_int128 u x = __128bit_ctz u x :=
      Nat.mod_eq_of_lt (by omega)
    rw [e]; exact hs
  · have hs := __builtin_ctz_spec 64 u x h0 h
    have e : pfq_ctz CType.unsigned_long_long u x = __builtin_ctz 64 u x :=
      Nat.mod_eq_of_lt (by omega)
    rw [e]; exact hs

/-- The index of the least significant set bit is determined by its three
properties. -/
theorem lowest_bit_unique (x a b : Nat) (ha : x.testBit a = true) (hb : x.testBit b = true)
    (hla : ∀ j, j < a → x.testBit j = false) (hlb : ∀ j, j < b → x.testBit j = false) :
    a = b := by
  rcases Nat.lt_trichotomy a b with hab | hab | hab
  · rw [hlb a hab] at ha; exact Bool.noConfusion ha
  · exact hab
  · rw [hla b hab] at hb; exact Bool.noConfusion hb

/-! ## Order, membership and union of the enumerated values -/

theorem set_bits_pairwise (w m : Nat) : (set_bits w m).Pairwise (fun a b => a < b) := by
  unfold set_bits
  exact List.Pairwise.filter _ (List.pairwise_lt_range w)

theorem set_bits_nodup (w m : Nat) : (set_bits w m).Nodup := by
  unfold set_bits
  exact List.Nodup.filter _ (List.nodup_range w)

theorem two_pow_set_bits_pairwise (w m : Nat) :
    ((set_bits w m).map (fun i => 2 ^ i)).Pairwise (fun a b => a < b) := by
  rw [List.pairwise_map]
  exact List.Pairwise.imp (fun {a b} hab => Nat.pow_lt_pow_right (by norm_num) hab)
    (set_bits_pairwise w m)

theorem two_pow_set_bits_nodup (w m : Nat) : ((set_bits w m).map (fun i => 2 ^ i)).Nodup :=
  List.Nodup.map (Nat.pow_right_injective (le_refl 2)) (set_bits_nodup w m)

theorem mem_set_bits_of_lt (w m i : Nat) (h : m < 2 ^ w) :
    i ∈ set_bits w m ↔ m.testBit i = true := by
  rw [mem_set_bits]
  constructor
  · exact fun hi => hi.2
  · intro hi
    refine ⟨?_, hi⟩
    by_contra hc
    have h1 := Nat.testBit_lt_two_pow
      (lt_of_lt_of_le h (Nat.pow_le_pow_right (by norm_num) (Nat.not_lt.mp hc)))
    rw [hi] at h1
    exact Bool.noConfusion h1

theorem count_two_pow_set_bits (w m i : Nat) (h : m < 2 ^ w) :
    ((set_bits w m).map (fun j => 2 ^ j)).count (2 ^ i) = if m.testBit i = true then 1 else 0 := by
  by_cases hi : m.testBit i = true
  · rw [if_pos hi]
    apply List.count_eq_one_of_mem (two_pow_set_bits_nodup w m)
    exact List.mem_map.mpr ⟨i, (mem_set_bits_of_lt w m i h).mpr hi, rfl⟩
  · rw [if_neg hi]
    apply List.count_eq_zero_of_not_mem
    intro hmem
    obtain ⟨j, hj, hji⟩ := List.mem_map.mp hmem
    have : j = i := Nat.pow_right_injective (le_refl 2) hji
    subst this
    exact hi ((mem_set_bits_of_lt w m j h).mp hj)

theorem testBit_foldr_lor_two_pow (l : List Nat) (i : Nat) :
    (List.foldr (fun a b => a ||| b) 0 (l.map (fun j => 2 ^ j))).testBit i = decide (i ∈ l) := by
  induction l with
  | nil => simp
  | cons a l ih =>
    simp only [List.map_cons, List.foldr_cons, Nat.testBit_or, ih, Nat.testBit_two_pow,
      List.mem_cons]
    by_cases hai : a = i
    · simp [hai]
    · have hia : ¬ i = a := fun h => hai h.symm
      simp [hai, hia]

theorem foldr_lor_two_pow_set_bits (w m : Nat) (h : m < 2 ^ w) :
    List.foldr (fun a b => a ||| b) 0 ((set_bits w m).map (fun j => 2 ^ j)) = m := by
  apply Nat.eq_of_testBit_eq
  intro i
  rw [testBit_foldr_lor_two_pow]
  by_cases hi : m.testBit i = true
  · rw [hi]; exact decide_eq_true ((mem_set_bits_of_lt w m i h).mpr hi)
  · have hn : ¬ i ∈ set_bits w m := fun hmem => hi ((mem_set_bits_of_lt w m i h).mp hmem)
    rw [Bool.not_eq_true] at hi
    rw [hi]; exact decide_eq_false hn

theorem land_neg_eq_two_pow_ctz (t : CType) (u x : Nat) (h0 : x ≠ 0) (h : x < 2 ^ t.width) :
    x &&& neg t.width x = 2 ^ pfq_ctz t u x := by
  obtain ⟨h1, h2, h3⟩ := pfq_ctz_spec t u x h0 h
  obtain ⟨k, q, rfl⟩ := exists_pow_mul_odd x h0
  rw [land_neg_pow_mul_odd t.width k q h]
  congr 1
  exact lowest_bit_unique _ k _ (testBit_pow_mul_odd_self k q) h2
    (fun j hj => testBit_pow_mul_odd_lt k q j hj) h3

theorem map_pfq_ctz_two_pow (t : CType) (u : Nat) (l : List Nat) (hl : ∀ i ∈ l, i < t.width) :
    (l.map (fun i => 2 ^ i)).map (pfq_ctz t u) = l := by
  rw [List.map_map]
  conv_rhs => rw [← List.map_id l]
  apply List.map_congr_left
  intro i hi
  have hlt : 2 ^ i < 2 ^ t.width := Nat.pow_lt_pow_right (by norm_num) (hl i hi)
  obtain ⟨_, h2, h3⟩ := pfq_ctz_spec t u (2 ^ i) (by positivity) hlt
  simp only [Function.comp, id]
  rw [Nat.testBit_two_pow] at h2
  exact (of_decide_eq_true h2).symm

/-! ## Properties of the bit-mask utilities -/

/-- C1: for a mask `m` of any of the four operand types, the loop of
`pfq_bitwise_foreach(m, n, body)` stops and has then run its body exactly
`pfq_popcount(m)` times. -/
theorem pfq_bitwise_foreach_count (t : CType) (env : Env) (h : env.m < 2 ^ t.width) :
    (pfq_bitwise_foreach t env).map (fun r => r.1.length) = some (pfq_popcount t env.m) := by
  rw [pfq_bitwise_foreach_eq t env h, pfq_popcount_eq]
  simp

theorem pfq_bitwise_foreach_count_witness :
    (2 ^ 127 + 2 ^ 64 + 1 : Nat) < 2 ^ CType.unsigned_int128.width ∧
      (pfq_bitwise_foreach CType.unsigned_int128 ⟨2 ^ 127 + 2 ^ 64 + 1, 7⟩).map
        (fun r => r.1.length) = some (pfq_popcount CType.unsigned_int128 (2 ^ 127 + 2 ^ 64 + 1)) :=
  ⟨by decide, pfq_bitwise_foreach_count CType.unsigned_int128 ⟨2 ^ 127 + 2 ^ 64 + 1, 7⟩ (by decide)⟩

/-- C2: the values bound to `n` by `pfq_bitwise_foreach(m, n, body)` increase
strictly from each iteration to the next (and to every later one), so no value
is produced twice. -/
theorem pfq_bitwise_foreach_increasing (t : CType) (env : Env) (h : env.m < 2 ^ t.width) :
    ∃ items env', pfq_bitwise_foreach t env = some (items, env') ∧
      items.Chain' (fun a b => a < b) ∧ items.Pairwise (fun a b => a < b) ∧ items.Nodup :=
  ⟨_, _, pfq_bitwise_foreach_eq t env h,
    (two_pow_set_bits_pairwise t.width env.m).chain',
    two_pow_set_bits_pairwise t.width env.m,
    two_pow_set_bits_nodup t.width env.m⟩

theorem pfq_bitwise_foreach_increasing_witness :
    (44 : Nat) < 2 ^ CType.unsigned_int.width ∧
      ∃ items env', pfq_bitwise_foreach CType.unsigned_int ⟨44, 7⟩ = some (items, env') ∧
        items.Chain' (fun a b => a < b) ∧ items.Pairwise (fun a b => a < b) ∧ items.Nodup :=
  ⟨by decide, pfq_bitwise_foreach_increasing CType.unsigned_int ⟨44, 7⟩ (by decide)⟩

/-- C3: `pfq_bitwise_foreach` enumerates exactly the set bits of `m`: the
isolated bit `2 ^ i` is produced exactly once when bit `i` of `m` is set and
never when it is clear, every value produced is such a bit, and the bitwise OR
of all values produced is `m`. -/
theorem pfq_bitwise_foreach_exact (t : CType) (env : Env) (h : env.m < 2 ^ t.width) :
    ∃ items env', pfq_bitwise_foreach t env = some (items, env') ∧
      (∀ i, items.count (2 ^ i) = if env.m.testBit i = true then 1 else 0) ∧
      (∀ v, v ∈ items → ∃ i, v = 2 ^ i ∧ env.m.testBit i = true) ∧
      List.foldr (fun a b => a ||| b) 0 items = env.m := by
  refine ⟨_, _, pfq_bitwise_foreach_eq t env h,
    fun i => count_two_pow_set_bits t.width env.m i h, ?_,
    foldr_lor_two_pow_set_bits t.width env.m h⟩
  intro v hv
  obtain ⟨i, hi, hiv⟩ := List.mem_map.mp hv
  exact ⟨i, hiv.symm, ((mem_set_bits t.width env.m i).mp hi).2⟩

theorem pfq_bitwise_foreach_exact_witness :
    (2 ^ 63 + 6 : Nat) < 2 ^ CType.unsigned_long.width ∧
      ∃ items env', pfq_bitwise_foreach CType.unsigned_long ⟨2 ^ 63 + 6, 0⟩
          = some (items, env') ∧
        (∀ i, items.count (2 ^ i) = if (2 ^ 63 + 6 : Nat).testBit i = true then 1 else 0) ∧
        (∀ v, v ∈ items → ∃ i, v = 2 ^ i ∧ (2 ^ 63 + 6 : Nat).testBit i = true) ∧
        List.foldr (fun a b => a ||| b) 0 items = 2 ^ 63 + 6 :=
  ⟨by decide, pfq_bitwise_foreach_exact CType.unsigned_long ⟨2 ^ 63 + 6, 0⟩ (by decide)⟩

/-- C4: for a nonzero 128-bit mask `x`, `__128bit_ctz(x)` is the 0-based index
`r` of the least significant set bit of `x`: `r < 128`, bit `r` is set and
every lower bit is clear; it is the low-word count when the low 64 bits are
nonzero and 64 plus the high-word count otherwise, whatever the intrinsic
yields on a zero word; `pfq_ctz` returns the same number. -/
theorem __128bit_ctz_lowest (u x : Nat) (h0 : x ≠ 0) (h : x < 2 ^ 128) :
    __128bit_ctz u x < 128 ∧ x.testBit (__128bit_ctz u x) = true ∧
      (∀ j, j < __128bit_ctz u x → x.testBit j = false) ∧
      (x % 2 ^ 64 ≠ 0 → __128bit_ctz u x = __builtin_ctz 64 u (x % 2 ^ 64)) ∧
      (x % 2 ^ 64 = 0 → __128bit_ctz u x = 64 + __builtin_ctz 64 u ((x >>> 64) % 2 ^ 64)) ∧
      pfq_ctz CType.unsigned_int128 u x = __128bit_ctz u x := by
  obtain ⟨h1, h2, h3⟩ := __128bit_ctz_spec u x h0 h
  refine ⟨h1, h2, h3, ?_, ?_, Nat.mod_eq_of_lt (by omega)⟩
  · intro hlo
    unfold __128bit_ctz
    simp only [if_pos hlo]
  · intro hlo
    unfold __128bit_ctz
    simp only [ne_eq, hlo, not_true_eq_false, if_false]
    exact Nat.add_comm _ _

theorem __128bit_ctz_lowest_witness :
    (2 ^ 100 + 2 ^ 70 : Nat) ≠ 0 ∧ (2 ^ 100 + 2 ^ 70 : Nat) < 2 ^ 128 ∧
      __128bit_ctz 9 (2 ^ 100 + 2 ^ 70) = 70 ∧
      (__128bit_ctz 9 (2 ^ 100 + 2 ^ 70) < 128 ∧
        (2 ^ 100 + 2 ^ 70 : Nat).testBit (__128bit_ctz 9 (2 ^ 100 + 2 ^ 70)) = true ∧
        (∀ j, j < __128bit_ctz 9 (2 ^ 100 + 2 ^ 70) → (2 ^ 100 + 2 ^ 70 : Nat).testBit j = false) ∧
        ((2 ^ 100 + 2 ^ 70) % 2 ^ 64 ≠ 0 →
          __128bit_ctz 9 (2 ^ 100 + 2 ^ 70) = __builtin_ctz 64 9 ((2 ^ 100 + 2 ^ 70) % 2 ^ 64)) ∧
        ((2 ^ 100 + 2 ^ 70) % 2 ^ 64 = 0 →
          __128bit_ctz 9 (2 ^ 100 + 2 ^ 70)
            = 64 + __builtin_ctz 64 9 (((2 ^ 100 + 2 ^ 70) >>> 64) % 2 ^ 64)) ∧
        pfq_ctz CType.unsigned_int128 9 (2 ^ 100 + 2 ^ 70)
          = __128bit_ctz 9 (2 ^ 100 + 2 ^ 70)) :=
  ⟨by decide, by decide, by decide,
    __128bit_ctz_lowest 9 (2 ^ 100 + 2 ^ 70) (by decide) (by decide)⟩

/-- C5: for a 128-bit mask `x`, `__128bit_popcount(x)` is the number of set
bits of `x`: the sum over the two halves counts every set position below 128
exactly once, these are all the set positions of `x`, and the result is at
most 128; `pfq_popcount` returns the same number. -/
theorem __128bit_popcount_count (x : Nat) (h : x < 2 ^ 128) :
    __128bit_popcount x = (set_bits 128 x).length ∧ (set_bits 128 x).Nodup ∧
      (∀ i, i ∈ set_bits 128 x ↔ x.testBit i = true) ∧ __128bit_popcount x ≤ 128 ∧
      pfq_popcount CType.unsigned_int128 x = __128bit_popcount x := by
  have hle := set_bits_length_le 128 x
  refine ⟨__128bit_popcount_eq x, set_bits_nodup 128 x,
    fun i => mem_set_bits_of_lt 128 x i h, ?_, ?_⟩
  · rw [__128bit_popcount_eq]; exact hle
  · rw [pfq_popcount_eq, __128bit_popcount_eq]; rfl

theorem __128bit_popcount_count_witness :
    (2 ^ 64 + 2 ^ 63 : Nat) < 2 ^ 128 ∧ __128bit_popcount (2 ^ 64 + 2 ^ 63) = 2 ∧
      (__128bit_popcount (2 ^ 64 + 2 ^ 63) = (set_bits 128 (2 ^ 64 + 2 ^ 63)).length ∧
        (set_bits 128 (2 ^ 64 + 2 ^ 63)).Nodup ∧
        (∀ i, i ∈ set_bits 128 (2 ^ 64 + 2 ^ 63) ↔ (2 ^ 64 + 2 ^ 63 : Nat).testBit i = true) ∧
        __128bit_popcount (2 ^ 64 + 2 ^ 63) ≤ 128 ∧
        pfq_popcount CType.unsigned_int128 (2 ^ 64 + 2 ^ 63)
          = __128bit_popcount (2 ^ 64 + 2 ^ 63)) :=
  ⟨by decide, by decide, __128bit_popcount_count (2 ^ 64 + 2 ^ 63) (by decide)⟩

/-- C6: on the zero mask of each operand type, whatever `n` held before,
`pfq_bitwise_foreach(0, n, body)` never executes its body, and
`pfq_popcount(0)` is 0. -/
theorem pfq_bitwise_foreach_zero (t : CType) (n0 : Nat) :
    pfq_bitwise_foreach t ⟨0, n0⟩ = some ([], ⟨0, 0⟩) ∧ pfq_popcount t 0 = 0 := by
  constructor
  · rw [pfq_bitwise_foreach_eq t ⟨0, n0⟩ (by positivity), set_bits_zero]
    rfl
  · rw [pfq_popcount_eq, set_bits_zero]; rfl

/-- C7, as stated, fails: on the `unsigned int` mask 4 the only value handed to
the body is 4, the isolated bit, while the index of the lowest set bit is 2. -/
theorem pfq_bitwise_foreach_value_not_index :
    (pfq_bitwise_foreach CType.unsigned_int ⟨4, 0⟩).map Prod.fst = some [4] ∧
      pfq_ctz CType.unsigned_int 0 4 = 2 ∧
      (pfq_bitwise_foreach CType.unsigned_int ⟨4, 0⟩).map Prod.fst
        ≠ some [pfq_ctz CType.unsigned_int 0 4] := by
  decide

/-- C7, amended: the value handed to the body in `n` at each iteration is the
isolated lowest set bit still remaining in the mask, that is `2 ^ i` for the
0-based index `i` of that bit, and the iteration then clears exactly that bit;
over the whole run the values are the `2 ^ i` for the set bits `i` of `m` in
ascending order, and `pfq_ctz` recovers the indices from them. -/
theorem pfq_bitwise_foreach_value_is_bit (t : CType) (u : Nat) (env : Env)
    (h : env.m < 2 ^ t.width) :
    (∀ fuel mask_, mask_ ≠ 0 → mask_ < 2 ^ t.width →
      pfq_bitwise_foreach_loop t.width (fuel + 1) mask_
        = (pfq_bitwise_foreach_loop t.width fuel (mask_ ^^^ 2 ^ pfq_ctz t u mask_)).map
            (fun r => (2 ^ pfq_ctz t u mask_ :: r.1, r.2))) ∧
      ∃ items env', pfq_bitwise_foreach t env = some (items, env') ∧
        items = (set_bits t.width env.m).map (fun i => 2 ^ i) ∧
        items.map (pfq_ctz t u) = set_bits t.width env.m := by
  constructor
  · intro fuel mask_ h0 hlt
    have hn := land_neg_eq_two_pow_ctz t u mask_ h0 hlt
    have hk := (pfq_ctz_spec t u mask_ h0 hlt).1
    have hx : mask_ ^^^ 2 ^ pfq_ctz t u mask_ < 2 ^ t.width :=
      Nat.xor_lt_two_pow hlt (Nat.pow_lt_pow_right (by norm_num) hk)
    simp only [pfq_bitwise_foreach_loop, hn, Nat.mod_eq_of_lt hx]
    simp [h0]
  · exact ⟨_, _, pfq_bitwise_foreach_eq t env h, rfl,
      map_pfq_ctz_two_pow t u _ (fun i hi => ((mem_set_bits t.width env.m i).mp hi).1)⟩

theorem pfq_bitwise_foreach_value_is_bit_witness :
    (44 : Nat) < 2 ^ CType.unsigned_int.width ∧
      ((∀ fuel mask_, mask_ ≠ 0 → mask_ < 2 ^ CType.unsigned_int.width →
        pfq_bitwise_foreach_loop CType.unsigned_int.width (fuel + 1) mask_
          = (pfq_bitwise_foreach_loop CType.unsigned_int.width fuel
              (mask_ ^^^ 2 ^ pfq_ctz CType.unsigned_int 0 mask_)).map
              (fun r => (2 ^ pfq_ctz CType.unsigned_int 0 mask_ :: r.1, r.2))) ∧
        ∃ items env', pfq_bitwise_foreach CType.unsigned_int ⟨44, 0⟩ = some (items, env') ∧
          items = (set_bits CType.unsigned_int.width 44).map (fun i => 2 ^ i) ∧
          items.map (pfq_ctz CType.unsigned_int 0) = set_bits CType.unsigned_int.width 44) :=
  ⟨by decide, pfq_bitwise_foreach_value_is_bit CType.unsigned_int 0 ⟨44, 0⟩ (by decide)⟩

/-- C10: `pfq_bitwise_foreach(m, n, body)` leaves `m` unchanged, so running it
again on what the first run left behind produces the same sequence, and for a
nonzero `m` the sequence starts with the least significant set bit of `m`, the
bit whose index is `pfq_ctz(m)`. -/
theorem pfq_bitwise_foreach_restartable (t : CType) (u : Nat) (env : Env)
    (h : env.m < 2 ^ t.width) :
    ∃ items env', pfq_bitwise_foreach t env = some (items, env') ∧ env'.m = env.m ∧
      (pfq_bitwise_foreach t env').map Prod.fst = some items ∧
      (env.m ≠ 0 → items.head? = some (2 ^ pfq_ctz t u env.m)) := by
  refine ⟨_, _, pfq_bitwise_foreach_eq t env h, rfl, ?_, ?_⟩
  · rw [pfq_bitwise_foreach_eq t { env with n := 0 } h]
    rfl
  · intro h0
    obtain ⟨h1, h2, h3⟩ := pfq_ctz_spec t u env.m h0 h
    obtain ⟨k, q, hkq⟩ := exists_pow_mul_odd env.m h0
    rw [hkq] at h h2 h3 ⊢
    have hk : pfq_ctz t u (2 ^ k * (2 * q + 1)) = k :=
      lowest_bit_unique _ _ k h2 (testBit_pow_mul_odd_self k q) h3
        (fun j hj => testBit_pow_mul_odd_lt k q j hj)
    rw [hk, set_bits_pow_mul_odd t.width k q h]
    rfl

theorem pfq_bitwise_foreach_restartable_witness :
    (2 ^ 127 + 2 ^ 64 : Nat) < 2 ^ CType.unsigned_int128.width ∧
      ∃ items env', pfq_bitwise_foreach CType.unsigned_int128 ⟨2 ^ 127 + 2 ^ 64, 5⟩
          = some (items, env') ∧ env'.m = 2 ^ 127 + 2 ^ 64 ∧
        (pfq_bitwise_foreach CType.unsigned_int128 env').map Prod.fst = some items ∧
        ((2 ^ 127 + 2 ^ 64 : Nat) ≠ 0 →
          items.head? = some (2 ^ pfq_ctz CType.unsigned_int128 3 (2 ^ 127 + 2 ^ 64))) :=
  ⟨by decide,
    pfq_bitwise_foreach_restartable CType.unsigned_int128 3 ⟨2 ^ 127 + 2 ^ 64, 5⟩ (by decide)⟩

/-! ## Properties of the global configuration -/

/-- C8: every call of `pfq_global_init()` returns the address of the one object
`default_global` and leaves memory as it was, and at program start that object
holds `capture_incoming = 1`, `capture_outgoing = 0`, `capt_slot_size = 1514`,
`xmit_slot_size = 1514`, `capt_batch_len = 1`, `xmit_batch_len = 1`, an all-zero
`tx_affinity`, `tx_thread_nr = 0` and `tx_rate_control_eager = 1`. -/
theorem pfq_global_init_defaults (tx_affinity_len : Nat) (mem mem' : Memory) :
    (pfq_global_init mem).1 = Ptr.addr Obj.default_global ∧
      (pfq_global_init mem).1 = (pfq_global_init mem').1 ∧
      (pfq_global_init mem).2 = mem ∧
      ∃ g, (initial_memory tx_affinity_len).load
          (pfq_global_init (initial_memory tx_affinity_len)).1 = some g ∧
        g.capture_incoming = 1 ∧ g.capture_outgoing = 0 ∧
        g.capt_slot_size = 1514 ∧ g.xmit_slot_size = 1514 ∧
        g.capt_batch_len = 1 ∧ g.xmit_batch_len = 1 ∧
        (∀ a, a ∈ g.tx_affinity → a = 0) ∧ g.tx_affinity.length = tx_affinity_len ∧
        g.tx_thread_nr = 0 ∧ g.tx_rate_control_eager = 1 := by
  refine ⟨rfl, rfl, rfl, default_global tx_affinity_len, rfl, rfl, rfl, rfl, rfl, rfl, rfl,
    ?_, ?_, rfl, rfl⟩
  · intro a ha
    exact List.eq_of_mem_replicate ha
  · exact List.length_replicate _ _

/-- C9: the configuration that `pfq_global_init()` returns at program start has
positive `capt_slot_size`, `xmit_slot_size` and `skb_pool_size`, and
`capt_batch_len` and `xmit_batch_len` of at least 1. -/
theorem pfq_global_init_invariant (tx_affinity_len : Nat) :
    ∃ g, (initial_memory tx_affinity_len).load
        (pfq_global_init (initial_memory tx_affinity_len)).1 = some g ∧
      0 < g.capt_slot_size ∧ 0 < g.xmit_slot_size ∧ 0 < g.skb_pool_size ∧
      1 ≤ g.capt_batch_len ∧ 1 ≤ g.xmit_batch_len :=
  ⟨default_global tx_affinity_len, rfl, by simp [default_global], by simp [default_global],
    by simp [default_global], by simp [default_global], by simp [default_global]⟩

/-! ## The descriptor built by `test-fun-prog.cpp` -/

theorem succs_main_prog (g : Indeterminate) :
    succs (main_prog g) 0 = [1, 1] ∧ succs (main_prog g) 1 = [3, 4] ∧
      succs (main_prog g) 2 = [] ∧ succs (main_prog g) 3 = [] ∧ succs (main_prog g) 4 = [] :=
  ⟨rfl, rfl, rfl, rfl, rfl⟩

theorem branches_main_prog (g : Indeterminate) :
    (main_prog g).fun_.map (fun f => (f.left, f.right))
      = [(1, 1), (3, 4), (-1, -1), (-1, -1), (-1, -1)] := rfl

/-- The walks of the descriptor that start at node 0. -/
theorem walks_main_prog (g : Indeterminate) (p : List Nat)
    (hp : is_walk (main_prog g) (0 :: p) = true) :
    p = [] ∨ p = [1] ∨ p = [1, 3] ∨ p = [1, 4] := by
  obtain ⟨s0, s1, _, s3, s4⟩ := succs_main_prog g
  match p, hp with
  | [], _ => exact Or.inl rfl
  | [b], hp =>
    simp only [is_walk, s0, Bool.and_true, decide_eq_true_eq] at hp
    simp at hp
    subst hp
    exact Or.inr (Or.inl rfl)
  | b :: c :: rest, hp =>
    simp only [is_walk, s0, Bool.and_eq_true, decide_eq_true_eq] at hp
    obtain ⟨hb, hrest⟩ := hp
    simp at hb
    subst hb
    match rest, hrest with
    | [], hrest =>
      simp only [is_walk, s1, Bool.and_true, decide_eq_true_eq] at hrest
      simp at hrest
      rcases hrest with h | h
      · subst h; exact Or.inr (Or.inr (Or.inl rfl))
      · subst h; exact Or.inr (Or.inr (Or.inr rfl))
    | e :: rest', hrest =>
      simp only [is_walk, s1, Bool.and_eq_true, decide_eq_true_eq] at hrest
      obtain ⟨hc, hrest'⟩ := hrest
      simp at hc
      rcases hc with h | h
      · subst h
        cases rest' <;> simp [is_walk, s3] at hrest'
      · subst h
        cases rest' <;> simp [is_walk, s4] at hrest'

/-- C11: whatever the block from `malloc` held, the descriptor built by `main`
has `size = 5`, `entry_point = 0` and the nodes ip, conditional, is_icmp,
steer_ip, drop; `entry_point < size`, every `left` and `right` is `-1` or below
`size`, and no walk from `entry_point` along `left`/`right` visits a node twice:
every such walk has at most `size` steps and extends to one that ends at a
terminal node within `size` steps. -/
theorem main_prog_structural_invariant (g : Indeterminate) :
    (main_prog g).size = 5 ∧ (main_prog g).entry_point = 0 ∧
      (main_prog g).fun_.map (fun f => f.symbol)
        = ["ip", "conditional", "is_icmp", "steer_ip", "drop"] ∧
      (main_prog g).fun_.length = (main_prog g).size ∧
      (main_prog g).entry_point < (main_prog g).size ∧
      (∀ f, f ∈ (main_prog g).fun_ →
        index_ok (main_prog g) f.left = true ∧ index_ok (main_prog g) f.right = true) ∧
      (∀ p, is_walk (main_prog g) ((main_prog g).entry_point :: p) = true →
        ((main_prog g).entry_point :: p).Nodup ∧ p.length ≤ (main_prog g).size ∧
        ∃ q last, is_walk (main_prog g) ((main_prog g).entry_point :: (p ++ q)) = true ∧
          ((main_prog g).entry_point :: (p ++ q)).getLast? = some last ∧
          is_terminal (main_prog g) last = true ∧
          (p ++ q).length ≤ (main_prog g).size) := by
  refine ⟨rfl, rfl, rfl, rfl, (by show (0 : Nat) < 5; decide), ?_, ?_⟩
  · intro f hf
    have hmem := List.mem_map_of_mem (fun f => (f.left, f.right)) hf
    rw [branches_main_prog g] at hmem
    simp only [List.mem_cons, Prod.mk.injEq, List.mem_singleton, List.not_mem_nil,
      or_false] at hmem
    rcases hmem with ⟨hl, hr⟩ | ⟨hl, hr⟩ | ⟨hl, hr⟩ | ⟨hl, hr⟩ | ⟨hl, hr⟩ <;>
      rw [hl, hr] <;> exact ⟨rfl, rfl⟩
  · intro p hp
    rcases walks_main_prog g p hp with h | h | h | h <;> subst h
    · exact ⟨(by show [0].Nodup; decide), (by show (0 : Nat) ≤ 5; decide), [1, 3], 3,
        rfl, rfl, rfl, (by show (2 : Nat) ≤ 5; decide)⟩
    · exact ⟨(by show [0, 1].Nodup; decide), (by show (1 : Nat) ≤ 5; decide), [3], 3,
        rfl, rfl, rfl, (by show (2 : Nat) ≤ 5; decide)⟩
    · exact ⟨(by show [0, 1, 3].Nodup; decide), (by show (2 : Nat) ≤ 5; decide), [], 3,
        rfl, rfl, rfl, (by show (2 : Nat) ≤ 5; decide)⟩
    · exact ⟨(by show [0, 1, 4].Nodup; decide), (by show (2 : Nat) ≤ 5; decide), [], 4,
        rfl, rfl, rfl, (by show (2 : Nat) ≤ 5; decide)⟩

/-- C12, at a block from `malloc` that was used before: every node of the
descriptor has exactly 4 argument slots and those of node 0 are the empty
pair, but the slots of nodes 1 to 4 still hold `{ 0xdead, 7 }`, because all
twenty argument assignments of `main` name `fun[0]`. -/
theorem main_prog_args_stale :
    (main_prog stale_block).fun_.map (fun f => f.arg.length) = [4, 4, 4, 4, 4] ∧
      (main_prog stale_block).fun_.map (fun f => f.arg)
        = [[⟨0, 0⟩, ⟨0, 0⟩, ⟨0, 0⟩, ⟨0, 0⟩],
           [⟨57005, 7⟩, ⟨57005, 7⟩, ⟨57005, 7⟩, ⟨57005, 7⟩],
           [⟨57005, 7⟩, ⟨57005, 7⟩, ⟨57005, 7⟩, ⟨57005, 7⟩],
           [⟨57005, 7⟩, ⟨57005, 7⟩, ⟨57005, 7⟩, ⟨57005, 7⟩],
           [⟨57005, 7⟩, ⟨57005, 7⟩, ⟨57005, 7⟩, ⟨57005, 7⟩]] ∧
      ¬ (∀ f, f ∈ (main_prog stale_block).fun_ →
          ∀ a, a ∈ f.arg → a = (⟨0, 0⟩ : pfq_functional_arg)) := by
  decide

/-! ## One iteration of the loop -/

theorem set_bits_two_pow (w k : Nat) (hk : k < w) : set_bits w (2 ^ k) = [k] := by
  have h : 2 ^ k * (2 * 0 + 1) < 2 ^ w := by
    simpa using Nat.pow_lt_pow_right (by norm_num : 1 < 2) hk
  have hs := set_bits_pow_mul_odd w k 0 h
  simp only [Nat.mul_zero, Nat.zero_add, Nat.mul_one, Nat.xor_self] at hs
  rw [hs, set_bits_zero]

theorem xor_two_pow_eq_land_pred (k q : Nat) :
    2 ^ k * (2 * q + 1) ^^^ 2 ^ k = 2 ^ k * (2 * q + 1) &&& (2 ^ k * (2 * q + 1) - 1) := by
  apply Nat.eq_of_testBit_eq
  intro i
  rw [testBit_xor_two_pow _ k i (testBit_pow_mul_odd_self k q), Nat.testBit_and,
    testBit_pow_mul_odd_pred, testBit_pow_mul_odd]
  rcases Nat.lt_trichotomy i k with hik | hik | hik
  · simp [Nat.not_le.mpr hik]
  · subst hik; simp
  · simp [Nat.le_of_lt hik, hik, Nat.ne_of_gt hik, Nat.not_lt.mpr (Nat.le_of_lt hik)]

theorem land_pred_lt (m : Nat) (h0 : m ≠ 0) : m &&& (m - 1) < m :=
  lt_of_le_of_lt Nat.and_le_right (by omega)

theorem pfq_bitwise_foreach_loop_isSome (w : Nat) (m : Nat) (h : m < 2 ^ w) :
    (pfq_bitwise_foreach_loop w (w + 1) m).isSome = true := by
  rw [pfq_bitwise_foreach_loop_eq w _ _ h (Nat.lt_succ_of_le (set_bits_length_le _ _))]
  rfl

/-- C14: for a mask of one of the operand types (width 32, 64 or 128) and
unary minus taken modulo `2 ^ w`, a nonzero mask has `mask & -mask` equal to
`2 ^ pfq_ctz(mask)`: exactly one bit set, the least significant set bit of the
mask; for the zero mask the expression is 0. -/
theorem land_neg_isolates_lowest (t : CType) (u mask : Nat) (h : mask < 2 ^ t.width) :
    (mask ≠ 0 →
      mask &&& neg t.width mask = 2 ^ pfq_ctz t u mask ∧
      pfq_popcount t (mask &&& neg t.width mask) = 1 ∧
      (∀ i, (mask &&& neg t.width mask).testBit i = decide (pfq_ctz t u mask = i)) ∧
      mask.testBit (pfq_ctz t u mask) = true ∧
      (∀ j, j < pfq_ctz t u mask → mask.testBit j = false)) ∧
    (mask = 0 → mask &&& neg t.width mask = 0) := by
  constructor
  · intro h0
    obtain ⟨h1, h2, h3⟩ := pfq_ctz_spec t u mask h0 h
    have hn := land_neg_eq_two_pow_ctz t u mask h0 h
    refine ⟨hn, ?_, ?_, h2, h3⟩
    · rw [hn, pfq_popcount_eq, set_bits_two_pow _ _ h1]; rfl
    · intro i
      rw [hn, Nat.testBit_two_pow]
  · intro h0
    rw [h0, Nat.zero_and]

theorem land_neg_isolates_lowest_witness :
    (2 ^ 127 + 2 ^ 70 : Nat) < 2 ^ CType.unsigned_int128.width ∧
      (2 ^ 127 + 2 ^ 70 : Nat) &&& neg 128 (2 ^ 127 + 2 ^ 70) = 2 ^ 70 ∧
      (((2 ^ 127 + 2 ^ 70 : Nat) ≠ 0 →
        (2 ^ 127 + 2 ^ 70 : Nat) &&& neg CType.unsigned_int128.width (2 ^ 127 + 2 ^ 70)
          = 2 ^ pfq_ctz CType.unsigned_int128 0 (2 ^ 127 + 2 ^ 70) ∧
        pfq_popcount CType.unsigned_int128
          ((2 ^ 127 + 2 ^ 70 : Nat) &&& neg CType.unsigned_int128.width (2 ^ 127 + 2 ^ 70)) = 1 ∧
        (∀ i, ((2 ^ 127 + 2 ^ 70 : Nat) &&&
            neg CType.unsigned_int128.width (2 ^ 127 + 2 ^ 70)).testBit i
          = decide (pfq_ctz CType.unsigned_int128 0 (2 ^ 127 + 2 ^ 70) = i)) ∧
        (2 ^ 127 + 2 ^ 70 : Nat).testBit (pfq_ctz CType.unsigned_int128 0 (2 ^ 127 + 2 ^ 70))
          = true ∧
        (∀ j, j < pfq_ctz CType.unsigned_int128 0 (2 ^ 127 + 2 ^ 70) →
          (2 ^ 127 + 2 ^ 70 : Nat).testBit j = false)) ∧
      ((2 ^ 127 + 2 ^ 70 : Nat) = 0 →
        (2 ^ 127 + 2 ^ 70 : Nat) &&& neg CType.unsigned_int128.width (2 ^ 127 + 2 ^ 70) = 0)) :=
  ⟨by decide, by decide,
    land_neg_isolates_lowest CType.unsigned_int128 0 (2 ^ 127 + 2 ^ 70) (by decide)⟩

/-- C15, as stated, fails: on the nonzero 128-bit mask 1 the second evaluation
of `__builtin_ctzll` in `__128bit_ctz` is applied to the high word, which is 0. -/
theorem __128bit_ctz_evaluates_zero_word :
    (1 : Nat) ≠ 0 ∧ (1 : Nat) < 2 ^ 128 ∧ (__128bit_ctz_traced 0 1).2 = [1, 0] ∧
      ¬ (∀ a, a ∈ (__128bit_ctz_traced 0 1).2 → a ≠ 0) := by
  decide

/-- C15, amended: `__128bit_ctz(x)` evaluates the 64-bit count on both words
of `x` whatever they are, so one evaluation is applied to 0 whenever exactly
one word of a nonzero `x` is 0; the value it returns is the one computed on a
nonzero word, so for every nonzero 128-bit `x` the result does not depend on
what the intrinsic yields at 0, while for `x = 0` it does. -/
theorem __128bit_ctz_selects_nonzero_word (u x : Nat) (h0 : x ≠ 0) (h : x < 2 ^ 128) :
    (__128bit_ctz_traced u x).1 = __128bit_ctz u x ∧
      (__128bit_ctz_traced u x).2 = [x % 2 ^ 64, (x >>> 64) % 2 ^ 64] ∧
      (if x % 2 ^ 64 ≠ 0 then x % 2 ^ 64 else (x >>> 64) % 2 ^ 64) ≠ 0 ∧
      (if x % 2 ^ 64 ≠ 0 then x % 2 ^ 64 else (x >>> 64) % 2 ^ 64)
        ∈ (__128bit_ctz_traced u x).2 ∧
      (∀ u', __128bit_ctz u' x = __128bit_ctz u x) ∧
      (∀ u', __128bit_ctz u' 0 = u' + 64) := by
  refine ⟨rfl, rfl, ?_, ?_, ?_, ?_⟩
  · by_cases hlo : x % 2 ^ 64 = 0
    · simp only [ne_eq, hlo, not_true_eq_false, if_false]
      have hhi_lt : x >>> 64 < 2 ^ 64 := by
        rw [Nat.shiftRight_eq_div_pow]
        exact Nat.div_lt_of_lt_mul (by simpa [← pow_add] using h)
      rw [Nat.mod_eq_of_lt hhi_lt, Nat.shiftRight_eq_div_pow]
      intro hc
      have := Nat.div_add_mod x (2 ^ 64)
      rw [hc, hlo] at this
      omega
    · simp only [ne_eq, hlo, not_false_eq_true, if_true]
  · show _ ∈ [x % 2 ^ 64, (x >>> 64) % 2 ^ 64]
    by_cases hlo : x % 2 ^ 64 = 0
    · simp only [ne_eq, hlo, not_true_eq_false, if_false]
      exact List.mem_cons_of_mem _ (List.mem_singleton.mpr rfl)
    · simp only [ne_eq, hlo, not_false_eq_true, if_true]
      exact List.mem_cons_self _ _
  · intro u'
    obtain ⟨_, h2, h3⟩ := __128bit_ctz_spec u x h0 h
    obtain ⟨_, h2', h3'⟩ := __128bit_ctz_spec u' x h0 h
    exact lowest_bit_unique x _ _ h2' h2 h3' h3
  · intro u'
    rfl

theorem __128bit_ctz_selects_nonzero_word_witness :
    (2 ^ 70 : Nat) ≠ 0 ∧ (2 ^ 70 : Nat) < 2 ^ 128 ∧
      ((__128bit_ctz_traced 5 (2 ^ 70)).1 = __128bit_ctz 5 (2 ^ 70) ∧
        (__128bit_ctz_traced 5 (2 ^ 70)).2 = [2 ^ 70 % 2 ^ 64, (2 ^ 70 >>> 64) % 2 ^ 64] ∧
        (if 2 ^ 70 % 2 ^ 64 ≠ 0 then 2 ^ 70 % 2 ^ 64 else (2 ^ 70 >>> 64) % 2 ^ 64) ≠ 0 ∧
        (if 2 ^ 70 % 2 ^ 64 ≠ 0 then 2 ^ 70 % 2 ^ 64 else (2 ^ 70 >>> 64) % 2 ^ 64)
          ∈ (__128bit_ctz_traced 5 (2 ^ 70)).2 ∧
        (∀ u', __128bit_ctz u' (2 ^ 70) = __128bit_ctz 5 (2 ^ 70)) ∧
        (∀ u', __128bit_ctz u' 0 = u' + 64)) :=
  ⟨by decide, by decide, __128bit_ctz_selects_nonzero_word 5 (2 ^ 70) (by decide) (by decide)⟩

/-- One iteration when `n` has the mask's own type. -/
theorem pfq_bitwise_foreach_step_same_type (t : CType) (u mask_ : Nat) (h0 : mask_ ≠ 0)
    (h : mask_ < 2 ^ t.width) :
    (mask_ ^^^ (mask_ &&& neg t.width mask_)) % 2 ^ t.width = mask_ &&& (mask_ - 1) ∧
      (∀ i, (mask_ &&& (mask_ - 1)).testBit i
        = (mask_.testBit i && decide (i ≠ pfq_ctz t u mask_))) ∧
      pfq_popcount t (mask_ &&& (mask_ - 1)) + 1 = pfq_popcount t mask_ ∧
      mask_ &&& (mask_ - 1) < mask_ ∧
      (∀ fuel, pfq_bitwise_foreach_loop t.width (fuel + 1) mask_
        = (pfq_bitwise_foreach_loop t.width fuel (mask_ &&& (mask_ - 1))).map
            (fun r => ((mask_ &&& neg t.width mask_) :: r.1, r.2))) ∧
      (∀ env : Env, (pfq_bitwise_foreach t env).isSome = true) := by
  have hn := land_neg_eq_two_pow_ctz t u mask_ h0 h
  obtain ⟨h1, h2, h3⟩ := pfq_ctz_spec t u mask_ h0 h
  have hlt := land_pred_lt mask_ h0
  have hx : mask_ ^^^ 2 ^ pfq_ctz t u mask_ = mask_ &&& (mask_ - 1) := by
    obtain ⟨k, q, hkq⟩ := exists_pow_mul_odd mask_ h0
    rw [hkq] at h2 h3 ⊢
    have hk : pfq_ctz t u (2 ^ k * (2 * q + 1)) = k :=
      lowest_bit_unique _ _ k h2 (testBit_pow_mul_odd_self k q) h3
        (fun j hj => testBit_pow_mul_odd_lt k q j hj)
    rw [hk]
    exact xor_two_pow_eq_land_pred k q
  have hstep : (mask_ ^^^ (mask_ &&& neg t.width mask_)) % 2 ^ t.width
      = mask_ &&& (mask_ - 1) := by
    rw [hn, hx]
    exact Nat.mod_eq_of_lt (lt_trans hlt h)
  refine ⟨hstep, ?_, ?_, hlt, ?_, ?_⟩
  · intro i
    rw [← hx]
    exact testBit_xor_two_pow mask_ _ i h2
  · rw [pfq_popcount_eq, pfq_popcount_eq, ← hx]
    obtain ⟨k, q, hkq⟩ := exists_pow_mul_odd mask_ h0
    rw [hkq] at h h2 h3 ⊢
    have hk : pfq_ctz t u (2 ^ k * (2 * q + 1)) = k :=
      lowest_bit_unique _ _ k h2 (testBit_pow_mul_odd_self k q) h3
        (fun j hj => testBit_pow_mul_odd_lt k q j hj)
    rw [hk, set_bits_pow_mul_odd t.width k q h]
    rfl
  · intro fuel
    simp only [pfq_bitwise_foreach_loop, hstep]
    simp [h0]
  · intro env
    unfold pfq_bitwise_foreach
    rw [Option.isSome_map']
    exact pfq_bitwise_foreach_loop_isSome t.width _ (Nat.mod_lt _ (by positivity))

/-! ## The loop variable's type -/

theorem store_n_of_lt (nt : IntType) (w v : Nat) (ht : w ≤ nt.bits) (hv : v < 2 ^ w) :
    store_n nt v = v :=
  Nat.mod_eq_of_lt (lt_of_lt_of_le hv (Nat.pow_le_pow_right (by norm_num) ht))

theorem load_n_of_le (nt : IntType) (w n : Nat) (ht : w ≤ nt.bits) : load_n nt w n = n := by
  unfold load_n
  split
  · rw [Nat.max_eq_right ht, Nat.sub_self, Nat.add_zero]
  · rfl

theorem land_neg_lt (w mask_ : Nat) (h : mask_ < 2 ^ w) : mask_ &&& neg w mask_ < 2 ^ w :=
  lt_of_le_of_lt Nat.and_le_left h

/-- With a loop variable at least as wide as the mask, the loop runs as it does
with one of the mask's own type. -/
theorem pfq_bitwise_foreach_loop_typed_eq (w : Nat) (nt : IntType) (ht : w ≤ nt.bits) :
    ∀ fuel mask_, mask_ < 2 ^ w →
      pfq_bitwise_foreach_loop_typed w nt fuel mask_ = pfq_bitwise_foreach_loop w fuel mask_ := by
  intro fuel
  induction fuel with
  | zero => intro mask_ _; rfl
  | succ fuel ih =>
    intro mask_ h
    have hs := store_n_of_lt nt w _ ht (land_neg_lt w mask_ h)
    simp only [pfq_bitwise_foreach_loop_typed, pfq_bitwise_foreach_loop, hs,
      load_n_of_le nt w _ ht]
    rw [ih _ (Nat.mod_lt _ (by positivity))]

theorem pfq_bitwise_foreach_typed_eq (t : CType) (nt : IntType) (ht : t.width ≤ nt.bits)
    (env : Env) : pfq_bitwise_foreach_typed t nt env = pfq_bitwise_foreach t env := by
  unfold pfq_bitwise_foreach_typed pfq_bitwise_foreach
  rw [pfq_bitwise_foreach_loop_typed_eq t.width nt ht _ _ (Nat.mod_lt _ (by positivity))]

/-- An `unsigned long` mask with only bit 40 set and an `unsigned int` loop
variable: within no budget does the loop come to an end. -/
theorem pfq_bitwise_foreach_loop_typed_stuck :
    ∀ fuel, pfq_bitwise_foreach_loop_typed 64 ⟨32, false⟩ fuel (2 ^ 40) = none := by
  intro fuel
  induction fuel with
  | zero => rfl
  | succ fuel ih =>
    have hstep : (2 ^ 40 ^^^ load_n ⟨32, false⟩ 64
        (store_n ⟨32, false⟩ (2 ^ 40 &&& neg 64 (2 ^ 40)))) % 2 ^ 64 = 2 ^ 40 := by decide
    have h0 : (2 ^ 40 : Nat) ≠ 0 := by decide
    simp only [pfq_bitwise_foreach_loop_typed, hstep, ih]
    simp

/-- C16, as stated, fails: the macro declares only `mask_`, and `n` is the
caller's. With an `unsigned long` mask `2 ^ 40` and an `unsigned int` `n`, `n`
becomes 0 and `mask_ ^= n` clears nothing: the mask stays `2 ^ 40` instead of
becoming `mask_ & (mask_ - 1) = 0`, it is not smaller, and the loop comes to
no end within any budget. With an `int` `n` and the mask `2 ^ 31`, `mask_ ^= n`
sets bits 32 to 63. -/
theorem pfq_bitwise_foreach_narrow_n_stuck :
    (2 ^ 40 : Nat) ≠ 0 ∧ (2 ^ 40 : Nat) < 2 ^ CType.unsigned_long.width ∧
      store_n ⟨32, false⟩ (2 ^ 40 &&& neg CType.unsigned_long.width (2 ^ 40)) = 0 ∧
      (2 ^ 40 ^^^ load_n ⟨32, false⟩ CType.unsigned_long.width
        (store_n ⟨32, false⟩ (2 ^ 40 &&& neg CType.unsigned_long.width (2 ^ 40))))
          % 2 ^ CType.unsigned_long.width = 2 ^ 40 ∧
      (2 ^ 40 : Nat) &&& (2 ^ 40 - 1) = 0 ∧
      pfq_bitwise_foreach_typed CType.unsigned_long ⟨32, false⟩ ⟨2 ^ 40, 0⟩ = none ∧
      (∀ fuel, pfq_bitwise_foreach_loop_typed CType.unsigned_long.width ⟨32, false⟩ fuel
        (2 ^ 40) = none) ∧
      (2 ^ 31 ^^^ load_n ⟨32, true⟩ CType.unsigned_long.width
        (store_n ⟨32, true⟩ (2 ^ 31 &&& neg CType.unsigned_long.width (2 ^ 31))))
          % 2 ^ CType.unsigned_long.width = 2 ^ 64 - 2 ^ 32 ∧
      pfq_bitwise_foreach_typed CType.unsigned_long ⟨32, true⟩ ⟨2 ^ 31, 0⟩ = none :=
  ⟨by decide, by decide, by decide, by decide, by decide, by decide,
    pfq_bitwise_foreach_loop_typed_stuck, by decide, by decide⟩

/-- C16, amended: when the loop variable `n` has an integer type at least as
wide as the mask (its own type included), an iteration of
`pfq_bitwise_foreach` on a nonzero `mask_` binds `n` to the isolated bit and
clears exactly that bit: after `mask_ ^= n` the mask is `mask_ & (mask_ - 1)`,
which differs from `mask_` in the bit of index `pfq_ctz(mask_)` only, has a
population count one less and is strictly smaller; the loop goes on from that
mask, and the macro returns for every mask and every previous value of `n`. -/
theorem pfq_bitwise_foreach_step_clears (t : CType) (nt : IntType) (u mask_ : Nat)
    (ht : t.width ≤ nt.bits) (h0 : mask_ ≠ 0) (h : mask_ < 2 ^ t.width) :
    store_n nt (mask_ &&& neg t.width mask_) = 2 ^ pfq_ctz t u mask_ ∧
      (mask_ ^^^ load_n nt t.width (store_n nt (mask_ &&& neg t.width mask_))) % 2 ^ t.width
        = mask_ &&& (mask_ - 1) ∧
      (∀ i, (mask_ &&& (mask_ - 1)).testBit i
        = (mask_.testBit i && decide (i ≠ pfq_ctz t u mask_))) ∧
      pfq_popcount t (mask_ &&& (mask_ - 1)) + 1 = pfq_popcount t mask_ ∧
      mask_ &&& (mask_ - 1) < mask_ ∧
      (∀ fuel, pfq_bitwise_foreach_loop_typed t.width nt (fuel + 1) mask_
        = (pfq_bitwise_foreach_loop_typed t.width nt fuel (mask_ &&& (mask_ - 1))).map
            (fun r => (store_n nt (mask_ &&& neg t.width mask_) :: r.1, r.2))) ∧
      (∀ env : Env, (pfq_bitwise_foreach_typed t nt env).isSome = true) := by
  obtain ⟨hstep, hbits, hpop, hlt, _, hsome⟩ := pfq_bitwise_foreach_step_same_type t u mask_ h0 h
  have hs := store_n_of_lt nt t.width _ ht (land_neg_lt t.width mask_ h)
  have hstep' : (mask_ ^^^ load_n nt t.width (store_n nt (mask_ &&& neg t.width mask_)))
      % 2 ^ t.width = mask_ &&& (mask_ - 1) := by
    rw [hs, load_n_of_le nt t.width _ ht]; exact hstep
  refine ⟨?_, hstep', hbits, hpop, hlt, ?_, ?_⟩
  · rw [hs]; exact land_neg_eq_two_pow_ctz t u mask_ h0 h
  · intro fuel
    simp only [pfq_bitwise_foreach_loop_typed, hstep']
    simp [h0]
  · intro env
    rw [pfq_bitwise_foreach_typed_eq t nt ht env]
    exact hsome env

theorem pfq_bitwise_foreach_step_clears_witness :
    CType.unsigned_int.width ≤ (⟨64, true⟩ : IntType).bits ∧ (2 ^ 31 + 12 : Nat) ≠ 0 ∧
      (2 ^ 31 + 12 : Nat) < 2 ^ CType.unsigned_int.width ∧
      (2 ^ 31 + 12 : Nat) &&& (2 ^ 31 + 12 - 1) = 2 ^ 31 + 8 ∧
      pfq_bitwise_foreach_typed CType.unsigned_int ⟨64, true⟩ ⟨2 ^ 31 + 12, 0⟩
        = some ([4, 8, 2 ^ 31], ⟨2 ^ 31 + 12, 0⟩) ∧
      (store_n ⟨64, true⟩ ((2 ^ 31 + 12) &&& neg CType.unsigned_int.width (2 ^ 31 + 12))
          = 2 ^ pfq_ctz CType.unsigned_int 0 (2 ^ 31 + 12) ∧
        ((2 ^ 31 + 12) ^^^ load_n ⟨64, true⟩ CType.unsigned_int.width
            (store_n ⟨64, true⟩
              ((2 ^ 31 + 12) &&& neg CType.unsigned_int.width (2 ^ 31 + 12))))
          % 2 ^ CType.unsigned_int.width = (2 ^ 31 + 12) &&& (2 ^ 31 + 12 - 1) ∧
        (∀ i, ((2 ^ 31 + 12 : Nat) &&& (2 ^ 31 + 12 - 1)).testBit i
          = ((2 ^ 31 + 12 : Nat).testBit i
              && decide (i ≠ pfq_ctz CType.unsigned_int 0 (2 ^ 31 + 12)))) ∧
        pfq_popcount CType.unsigned_int ((2 ^ 31 + 12) &&& (2 ^ 31 + 12 - 1)) + 1
          = pfq_popcount CType.unsigned_int (2 ^ 31 + 12) ∧
        (2 ^ 31 + 12 : Nat) &&& (2 ^ 31 + 12 - 1) < 2 ^ 31 + 12 ∧
        (∀ fuel, pfq_bitwise_foreach_loop_typed CType.unsigned_int.width ⟨64, true⟩ (fuel + 1)
            (2 ^ 31 + 12)
          = (pfq_bitwise_foreach_loop_typed CType.unsigned_int.width ⟨64, true⟩ fuel
              ((2 ^ 31 + 12) &&& (2 ^ 31 + 12 - 1))).map
              (fun r => (store_n ⟨64, true⟩
                ((2 ^ 31 + 12) &&& neg CType.unsigned_int.width (2 ^ 31 + 12)) :: r.1, r.2))) ∧
        (∀ env : Env,
          (pfq_bitwise_foreach_typed CType.unsigned_int ⟨64, true⟩ env).isSome = true)) :=
  ⟨by decide, by decide, by decide, by decide, by decide,
    pfq_bitwise_foreach_step_clears CType.unsigned_int ⟨64, true⟩ 0 (2 ^ 31 + 12)
      (by decide) (by decide) (by decide)⟩

/-- C17: on a mask `v` that fits in 64 bits, `__128bit_popcount` of `v` is the
64-bit population count of `v` and, for `v ≠ 0`, `__128bit_ctz` of `v` is the
64-bit count of trailing zeros of `v`; on a 128-bit mask `x` whose low 64 bits
are zero and whose high word is not, `__128bit_ctz(x)` is 64 plus the 64-bit
count of trailing zeros of the high word. The macros agree in the same way. -/
theorem __128bit_agrees_with_64bit (u v x : Nat) (hv : v < 2 ^ 64) (hx : x < 2 ^ 128) :
    __128bit_popcount v = __builtin_popcount 64 v ∧
      pfq_popcount CType.unsigned_int128 v = pfq_popcount CType.unsigned_long_long v ∧
      (v ≠ 0 → __128bit_ctz u v = __builtin_ctz 64 u v ∧
        pfq_ctz CType.unsigned_int128 u v = pfq_ctz CType.unsigned_long_long u v) ∧
      (x % 2 ^ 64 = 0 → x >>> 64 ≠ 0 → __128bit_ctz u x = 64 + __builtin_ctz 64 u (x >>> 64)) := by
  have hmod : v % 2 ^ 64 = v := Nat.mod_eq_of_lt hv
  have hshift : v >>> 64 = 0 := by
    rw [Nat.shiftRight_eq_div_pow]
    exact Nat.div_eq_of_lt hv
  have hpop : __128bit_popcount v = __builtin_popcount 64 v := by
    unfold __128bit_popcount
    rw [hmod, hshift, Nat.zero_mod, __builtin_popcount_eq 64 0, set_bits_zero]
    rfl
  have hctz : v ≠ 0 → __128bit_ctz u v = __builtin_ctz 64 u v := by
    intro h0
    unfold __128bit_ctz
    simp only [hmod, ne_eq, h0, not_false_eq_true, if_true]
  refine ⟨hpop, ?_, ?_, ?_⟩
  · show __128bit_popcount v % 2 ^ 32 = __builtin_popcount 64 v % 2 ^ 32
    rw [hpop]
  · intro h0
    refine ⟨hctz h0, ?_⟩
    show __128bit_ctz u v % 2 ^ 32 = __builtin_ctz 64 u v % 2 ^ 32
    rw [hctz h0]
  · intro hlo _
    have hhi_lt : x >>> 64 < 2 ^ 64 := by
      rw [Nat.shiftRight_eq_div_pow]
      exact Nat.div_lt_of_lt_mul (by simpa [← pow_add] using hx)
    unfold __128bit_ctz
    simp only [ne_eq, hlo, not_true_eq_false, if_false, Nat.mod_eq_of_lt hhi_lt]
    exact Nat.add_comm _ _

theorem __128bit_agrees_with_64bit_witness :
    (2 ^ 63 + 8 : Nat) < 2 ^ 64 ∧ (2 ^ 100 : Nat) < 2 ^ 128 ∧
      __128bit_ctz 0 (2 ^ 100) = 100 ∧
      (__128bit_popcount (2 ^ 63 + 8) = __builtin_popcount 64 (2 ^ 63 + 8) ∧
        pfq_popcount CType.unsigned_int128 (2 ^ 63 + 8)
          = pfq_popcount CType.unsigned_long_long (2 ^ 63 + 8) ∧
        ((2 ^ 63 + 8 : Nat) ≠ 0 →
          __128bit_ctz 0 (2 ^ 63 + 8) = __builtin_ctz 64 0 (2 ^ 63 + 8) ∧
          pfq_ctz CType.unsigned_int128 0 (2 ^ 63 + 8)
            = pfq_ctz CType.unsigned_long_long 0 (2 ^ 63 + 8)) ∧
        (2 ^ 100 % 2 ^ 64 = 0 → 2 ^ 100 >>> 64 ≠ 0 →
          __128bit_ctz 0 (2 ^ 100) = 64 + __builtin_ctz 64 0 (2 ^ 100 >>> 64))) :=
  ⟨by decide, by decide, by decide,
    __128bit_agrees_with_64bit 0 (2 ^ 63 + 8) (2 ^ 100) (by decide) (by decide)⟩

end PFQ
